import Mathlib

/-!
Verification of the video-forensics pipeline (csdf).

Shallow embedding of the analysis pipeline in `src/csdf/forensic/`:
`orientation_detector.py`, `metadata_extractor.py`, `forensic.py`
(`extract_frames`, `scene_changes`, `ela_image_analysis`, `frame_hashes`,
`find_duplicate_hashes`, `build_report`), `frame_extractor.py` and `ela.py`.
External effects (ffprobe/ffmpeg subprocesses, cv2 decoding, PIL image I/O,
the filesystem) are modelled as explicit inputs: each fallible external step
is an `Except`-valued parameter, pure computations are translated directly.
-/

namespace PyStr

/-- Value of a decimal digit character. -/
def charDigitVal (c : Char) : Option Nat :=
  if c.isDigit then some (c.toNat - '0'.toNat) else none

/-- Digits of a nonempty decimal digit run, as a natural number; `none` if
some character is not a digit or the run is empty. -/
def digitsVal : List Char → Option Nat
  | [] => none
  | c :: rest =>
    match charDigitVal c with
    | none => none
    | some d =>
      match rest with
      | [] => some d
      | _ :: _ =>
        match digitsVal rest with
        | some r => some (d * 10 ^ rest.length + r)
        | none => none

/-- Fractional digit run `d1d2...` read as a rational in `[0,1)`. -/
def fracVal (cs : List Char) : Option ℚ :=
  match cs with
  | [] => some 0
  | _ =>
    match digitsVal cs with
    | some n => some ((n : ℚ) / (10 ^ cs.length : ℚ))
    | none => none

/-- Model of Python `str.split(sep)` for a one-character separator: split on
every occurrence, keeping empty pieces; `"".split(sep) == [""]`. -/
def pySplit (sep : Char) : List Char → List (List Char)
  | [] => [[]]
  | c :: rest =>
    let r := pySplit sep rest
    if c = sep then [] :: r
    else
      match r with
      | [] => [[c]]
      | h :: t => (c :: h) :: t

/-- Join pieces with a separator character (inverse of `pySplit`, used for
`str.join`). -/
def joinWith (sep : Char) : List (List Char) → List Char
  | [] => []
  | [x] => x
  | x :: y :: rest => x ++ sep :: joinWith sep (y :: rest)

/-- Unsigned decimal literal: `digits`, `digits.`, `digits.digits`, `.digits`. -/
def parseUnsignedFloat (cs : List Char) : Option ℚ :=
  match pySplit '.' cs with
  | [ip] =>
    match digitsVal ip with
    | some n => some (n : ℚ)
    | none => none
  | [ip, fp] =>
    if ip = [] ∧ fp = [] then none
    else
      match (if ip = [] then some 0 else digitsVal ip), fracVal fp with
      | some n, some f => some ((n : ℚ) + f)
      | _, _ => none
  | _ => none

/-- Python `float()` on simple decimal literals (optional sign, digits,
optional fractional part) — the only shapes relevant to ffprobe frame-rate
fields.  Other inputs (exponents, `inf`, whitespace) are out of the model's
domain and return `none`, modelling a raised `ValueError`. -/
def parsePyFloat (cs : List Char) : Option ℚ :=
  match cs with
  | '-' :: rest => (parseUnsignedFloat rest).map Neg.neg
  | '+' :: rest => parseUnsignedFloat rest
  | _ => parseUnsignedFloat cs

/-- Python `int()` on a decimal string (optional sign, digits); `none`
models a raised `ValueError`. -/
def parsePyInt (cs : List Char) : Option Int :=
  match cs with
  | '-' :: rest => (digitsVal rest).map (fun n => -(n : Int))
  | '+' :: rest => (digitsVal rest).map (fun n => (n : Int))
  | _ => (digitsVal cs).map (fun n => (n : Int))

end PyStr

namespace OrientationDetector

/-- One entry of a stream's `side_data_list`, keeping only the `rotation`
value read by the code (`orientation_detector.py` line 17); `none` models an
absent key / JSON null, `some r` a value on which Python's `int()` yields
`r`. -/
structure SideData where
  rotation : Option Int
deriving DecidableEq

/-- One entry of the probe's `streams` list, keeping only the fields read by
`detect_rotation_from_metadata`: the `rotate` tag (a JSON string, `none` when
the key is absent or the tags dict is falsy) and the `side_data_list`. -/
structure StreamRec where
  tags_rotate : Option String
  side_data_list : List SideData
deriving DecidableEq

/-- Rendering of a `rotate` tag value (`orientation_detector.py` lines 10-14):
`int(tags['rotate'])` then an f-string with a degree sign; if `int()` raises,
the raw tag value is returned. -/
def renderRotateTag (v : String) : String :=
  match PyStr.parsePyInt v.data with
  | some n => toString n ++ "°"
  | none => v

/-- Scan of one stream's `side_data_list` (lines 16-18): the first entry
whose `rotation` is not `None` wins. -/
def sideDataRotation : List SideData → Option String
  | [] => none
  | sd :: rest =>
    match sd.rotation with
    | some r => some (toString r ++ "°")
    | none => sideDataRotation rest

/-- What a single stream contributes (lines 9-18): an explicit `rotate` tag
is checked first and, when present, returned without looking at side data;
otherwise the stream's `side_data_list` is scanned. -/
def streamRotation (s : StreamRec) : Option String :=
  match s.tags_rotate with
  | some v => some (renderRotateTag v)
  | none => sideDataRotation s.side_data_list

/-- The loop over `meta.get("streams", [])` (lines 7-19): first stream with a
non-null rotation wins; if none matches the function returns `"0°"`. -/
def scanStreams : List StreamRec → String
  | [] => "0°"
  | s :: rest =>
    match streamRotation s with
    | some r => r
    | none => scanStreams rest

/-- `detect_rotation_from_metadata` (`orientation_detector.py`).  A falsy
`meta` (`None` or the empty dict `{}`, produced when probing fails) is
modelled as `none` and yields `"Unknown"`; a truthy dict is modelled by its
`streams` list (a truthy dict without a `streams` key is `some []`). -/
def detect_rotation_from_metadata : Option (List StreamRec) → String
  | none => "Unknown"
  | some streams => scanStreams streams

end OrientationDetector

namespace MetadataExtractor

/-- Value stored under `out["fps"]` by `pick_relevant_metadata`
(`metadata_extractor.py` lines 59-68): a rounded float, the raw frame-rate
string kept verbatim, or Python `None`. -/
inductive FpsVal where
  | num : ℚ → FpsVal
  | raw : List Char → FpsVal
  | pynone : FpsVal
deriving DecidableEq

/-- Python's banker's rounding (`round` ties-to-even) on an exact rational. -/
def roundHalfEven (q : ℚ) : ℤ :=
  let f := ⌊q⌋
  let frac := q - (f : ℚ)
  if frac < 1 / 2 then f
  else if 1 / 2 < frac then f + 1
  else if f % 2 = 0 then f else f + 1

/-- Python `round(x, 2)` modelled exactly over ℚ. -/
def pyRound2 (q : ℚ) : ℚ := (roundHalfEven (q * 100) : ℚ) / 100

/-- Python `fr.split("/")`. -/
def splitSlash (cs : List Char) : List (List Char) := PyStr.pySplit '/' cs

/-- The frame-rate branch of `pick_relevant_metadata`
(`metadata_extractor.py` lines 59-68), on the raw value of
`avg_frame_rate`/`r_frame_rate` (`none` models a missing key):

```
try:
    if fr and "/" in fr:
        num, den = fr.split("/")
        out["fps"] = round(float(num) / float(den), 2) if float(den) != 0 else fr
    else:
        out["fps"] = float(fr) if fr else None
except Exception:
    out["fps"] = fr
```

Python evaluates `float(den)` first (the ternary condition); the unpack of
`fr.split("/")` raises unless the split has exactly two pieces, and any
raised exception stores `fr` verbatim. -/
def pick_fps (fr : Option (List Char)) : FpsVal :=
  match fr with
  | none => FpsVal.pynone
  | some cs =>
    if cs ≠ [] ∧ '/' ∈ cs then
      match splitSlash cs with
      | [ns, ds] =>
        match PyStr.parsePyFloat ds with
        | none => FpsVal.raw cs
        | some b =>
          if b = 0 then FpsVal.raw cs
          else
            match PyStr.parsePyFloat ns with
            | none => FpsVal.raw cs
            | some a => FpsVal.num (pyRound2 (a / b))
      | _ => FpsVal.raw cs
    else
      if cs = [] then FpsVal.pynone
      else
        match PyStr.parsePyFloat cs with
        | some a => FpsVal.num a
        | none => FpsVal.raw cs

end MetadataExtractor

namespace Forensic

/-- Python truthiness test `max_frames and saved >= max_frames` used by both
frame-extraction loops: `None` and `0` are falsy, so a missing or zero cap
never stops the loop. -/
def capReached (maxFrames : Option Nat) (saved : Nat) : Bool :=
  match maxFrames with
  | none => false
  | some c => decide (c ≠ 0) && decide (c ≤ saved)

/-- The read/save loop of `extract_frames` (`forensic.py` lines 89-105),
returning the list of source frame offsets at which `cv2.imwrite` happens
(the emitted frame images, in emission order; `saved` is its length).
`remaining` is the number of decodable frames the capture will still yield;
`frameIdx`/`saved` are the loop counters.  A frame is saved when
`frame_idx % every_n_frame == 0`; after saving, `saved >= max_frames`
breaks the loop. -/
def extractLoop (everyN : Nat) (maxFrames : Option Nat) :
    Nat → Nat → Nat → List Nat
  | 0, _, _ => []
  | remaining + 1, frameIdx, saved =>
    if frameIdx % everyN == 0 then
      if capReached maxFrames (saved + 1) then [frameIdx]
      else frameIdx :: extractLoop everyN maxFrames remaining (frameIdx + 1) (saved + 1)
    else extractLoop everyN maxFrames remaining (frameIdx + 1) saved

/-- `extract_frames` (`forensic.py` lines 82-106) on a video with `total`
decodable frames: the offsets of the emitted frame images. -/
def extract_frames (total everyN : Nat) (maxFrames : Option Nat) : List Nat :=
  extractLoop everyN maxFrames total 0 0

/-- The read/save loop of the second sampler variant
(`frame_extractor.py` lines 16-29): here the cap is tested *before* saving a
sampled frame (`if max_frames and saved >= max_frames: break`). -/
def fxLoop (everyNth : Nat) (maxFrames : Option Nat) :
    Nat → Nat → Nat → List Nat
  | 0, _, _ => []
  | remaining + 1, idx, saved =>
    if idx % everyNth == 0 then
      if capReached maxFrames saved then []
      else idx :: fxLoop everyNth maxFrames remaining (idx + 1) (saved + 1)
    else fxLoop everyNth maxFrames remaining (idx + 1) saved

/-- `extract_frames` (`frame_extractor.py` lines 4-31) on a video with
`total` decodable frames: the source offsets of the extracted images. -/
def extract_frames_fx (total everyNth : Nat) (maxFrames : Option Nat) : List Nat :=
  fxLoop everyNth maxFrames total 0 0

/-- The frame loop of `scene_changes` (`forensic.py` lines 111-137), with
the external pieces abstracted: `hist` models
`calcHist`+`normalize` of a decoded frame and `cmp` models
`cv2.compareHist(..., HISTCMP_BHATTACHARYYA)`, whose result is compared to
the threshold with Python `>`.  State: previous histogram (`None` before the
first frame), current index, accumulated `changes` and `distances` (both
appended to, as in the Python lists). -/
def scLoop {α H D : Type} [LinearOrder D] (hist : α → H) (cmp : H → H → D)
    (threshold : D) (minDistanceFrames : Nat) :
    List α → Option H → Nat → List Nat → List (Nat × D) →
    List Nat × List (Nat × D)
  | [], _, _, changes, distances => (changes, distances)
  | frame :: rest, prevHist, idx, changes, distances =>
    let h := hist frame
    match prevHist with
    | none => scLoop hist cmp threshold minDistanceFrames rest (some h) (idx + 1) changes distances
    | some ph =>
      let d := cmp ph h
      let distances2 := distances ++ [(idx, d)]
      if threshold < d ∧ (changes = [] ∨ minDistanceFrames ≤ idx - changes.getLastD 0) then
        scLoop hist cmp threshold minDistanceFrames rest (some h) (idx + 1)
          (changes ++ [idx]) distances2
      else
        scLoop hist cmp threshold minDistanceFrames rest (some h) (idx + 1) changes distances2

/-- `scene_changes` (`forensic.py` lines 111-137): returns the flagged
indices and all `(index, distance)` pairs.  (The third Python return value,
`fps`, comes straight from the capture handle and is not modelled.) -/
def scene_changes {α H D : Type} [LinearOrder D] (hist : α → H) (cmp : H → H → D)
    (threshold : D) (minDistanceFrames : Nat) (frames : List α) :
    List Nat × List (Nat × D) :=
  scLoop hist cmp threshold minDistanceFrames frames none 0 [] []

/-- The mean-threshold perceptual hash of one sampled frame
(`forensic.py` lines 183-188), given the flattened grayscale grid produced
by `cv2.resize` (row-major, one rational per cell): compare each cell to the
grid mean and render `'1'`/`'0'`. -/
def meanHash (grid : List ℚ) : String :=
  let mean := grid.sum / (grid.length : ℚ)
  String.mk (grid.map (fun v => if mean < v then '1' else '0'))

/-- The sampling loop of `frame_hashes` (`forensic.py` lines 176-191):
`resize` models decode→grayscale→`cv2.resize` to the `hash_size` grid,
flattened row-major. -/
def frameHashesLoop {F : Type} (resize : F → List ℚ) (sampleEveryN : Nat) :
    List F → Nat → List (Nat × String)
  | [], _ => []
  | frame :: rest, idx =>
    if idx % sampleEveryN == 0 then
      (idx, meanHash (resize frame)) :: frameHashesLoop resize sampleEveryN rest (idx + 1)
    else frameHashesLoop resize sampleEveryN rest (idx + 1)

/-- `frame_hashes` (`forensic.py` lines 172-192) on a video whose decodable
frames are `frames`. -/
def frame_hashes {F : Type} (resize : F → List ℚ) (sampleEveryN : Nat)
    (frames : List F) : List (Nat × String) :=
  frameHashesLoop resize sampleEveryN frames 0

/-- Outcomes of the fallible external steps of `ela_image_analysis`
(`forensic.py` lines 142-167), in statement order: `Image.open(img_path)`,
`orig.save(tmp_path, ...)`, `Image.open(tmp_path)`, `scaled.save(out_path)`;
the diff/extrema/scaling arithmetic between them is pure and cannot raise.
`removeRaises` tells whether `os.remove(tmp_path)` raises, and `maxDiff` is
the statistic the pure part computes. -/
structure ElaEnv where
  openOrig : Except String Unit
  saveTmp : Except String Unit
  openComp : Except String Unit
  saveScaled : Except String Unit
  removeRaises : Bool
  maxDiff : Nat

/-- `ela_image_analysis` (`forensic.py` lines 142-167) as a state machine
over `ElaEnv`: first component is the call's outcome (the returned
`max_diff`, or the propagated exception), second component records whether
`tmp_path` (the recompressed copy) still exists on disk when the call ends.
The temp file exists from the moment `orig.save(tmp_path, ...)` succeeds;
the only removal is the `try: os.remove(tmp_path) except: pass` that runs
after the statistic is computed on the success path. -/
def ela_image_analysis (e : ElaEnv) : Except String Nat × Bool :=
  match e.openOrig with
  | .error err => (.error err, false)
  | .ok _ =>
    match e.saveTmp with
    | .error err => (.error err, false)
    | .ok _ =>
      match e.openComp with
      | .error err => (.error err, true)
      | .ok _ =>
        match e.saveScaled with
        | .error err => (.error err, true)
        | .ok _ =>
          (.ok e.maxDiff, e.removeRaises)

/-- `ela_from_image` (`ela.py` lines 4-30) has the identical effect
skeleton: save recompressed `tmp`, reopen it, diff, enhance, save the result
image, then `try: os.remove(tmp) except: pass` and return `dst_path`.  Same
environment shape; the result carries no statistic. -/
def ela_from_image (e : ElaEnv) (dstPath : String) : Except String String × Bool :=
  match e.openOrig with
  | .error err => (.error err, false)
  | .ok _ =>
    match e.saveTmp with
    | .error err => (.error err, false)
    | .ok _ =>
      match e.openComp with
      | .error err => (.error err, true)
      | .ok _ =>
        match e.saveScaled with
        | .error err => (.error err, true)
        | .ok _ =>
          (.ok dstPath, e.removeRaises)

/-- `index.setdefault(h, []).append(idx)` on an insertion-ordered dict
modelled as an association list: append `idx` to the bucket of `h`, creating
the bucket at the end if absent. -/
def setdefaultAppend : List (String × List Nat) → String → Nat → List (String × List Nat)
  | [], h, idx => [(h, [idx])]
  | (k, l) :: rest, h, idx =>
    if k = h then (k, l ++ [idx]) :: rest
    else (k, l) :: setdefaultAppend rest h idx

/-- The first loop of `find_duplicate_hashes` (`forensic.py` lines 197-198):
build the hash → index-list dict (Python dicts preserve insertion order). -/
def buildIndex : List (Nat × String) → List (String × List Nat) → List (String × List Nat)
  | [], acc => acc
  | (idx, h) :: rest, acc => buildIndex rest (setdefaultAppend acc h idx)

/-- `find_duplicate_hashes` (`forensic.py` lines 194-202): group sampled
indices by exact hash equality and keep the groups with `len(lst) > 1`. -/
def find_duplicate_hashes (hashes : List (Nat × String)) : List (String × List Nat) :=
  (buildIndex hashes []).filter (fun g => decide (1 < g.2.length))

/-- JSON-like values, enough to express the report record `build_report`
assembles and serializes (floats are idealized as rationals). -/
inductive JVal where
  | null : JVal
  | str : String → JVal
  | nat : Nat → JVal
  | rat : ℚ → JVal
  | arr : List JVal → JVal
  | obj : List (String × JVal) → JVal

/-- Top-level keys of an object value. -/
def jTopKeys : JVal → List String
  | .obj l => l.map Prod.fst
  | _ => []

/-- Entries of an object value. -/
def jEntries : JVal → List (String × JVal)
  | .obj l => l
  | _ => []

/-- Dict lookup on an object value (first matching key). -/
def jLookup (v : JVal) (k : String) : Option JVal :=
  match v with
  | .obj l => (l.find? (fun p => p.1 == k)).map Prod.snd
  | _ => none

/-- `os.path.basename`: the part after the last `/`. -/
def basename (p : String) : String :=
  String.mk ((PyStr.pySplit '/' p.data).getLastD p.data)

/-- `os.path.splitext(...)[0]`: drop the last dot-extension.  (The special
case of a leading-dot filename is not modelled; no claim depends on it.) -/
def stem (s : String) : String :=
  let parts := PyStr.pySplit '.' s.data
  if parts.length ≤ 1 then s else String.mk (PyStr.joinWith '.' parts.dropLast)

/-- Outcomes of the stages `build_report` (`forensic.py` lines 219-270)
invokes, in call order.  Each fallible stage is an `Except` (its Python
exception, or its result); `frame_files` is `sorted(os.listdir(frame_dir))`
after the sampling stage, and `ela` gives the outcome of
`ela_image_analysis` on each listed frame file. -/
structure BuildInputs where
  video_path : String
  work_dir : String
  meta : Except String JVal
  sha256 : Except String String
  stats : Except String JVal
  frames_saved : Except String Nat
  frame_files : List String
  ela : String → Except String Nat
  scenes : Except String (List Nat × ℚ)
  frame_hash_list : Except String (List (Nat × String))
  audio_extract : Except String Unit
  audio_spect : Except String Unit

/-- The ELA loop of `build_report` (`forensic.py` lines 236-240): run
`ela_image_analysis` on each selected frame file in order, recording
`{"ela_image": out_ela, "max_diff": maxdiff}` under the frame filename.  An
exception from any iteration propagates immediately (there is no handler in
the loop). -/
def elaLoop (ela : String → Except String Nat) (elaDir : String) :
    List String → Except String (List (String × JVal))
  | [] => .ok []
  | f :: rest => do
    let maxdiff ← ela f
    let entries ← elaLoop ela elaDir rest
    .ok ((f, JVal.obj [("ela_image", .str (elaDir ++ "/ela_" ++ f)),
                       ("max_diff", .nat maxdiff)]) :: entries)

/-- `build_report` (`forensic.py` lines 219-270).  Stage order and error
flow follow the source: metadata, whole-file hash, bitrate stats, frame
sampling and the per-frame ELA loop all propagate their exceptions; the
audio stage is wrapped in `try/except` that replaces the spectrogram path
with `None`; the assembled dict is serialized to
`<base>_report.json` and returned. -/
def build_report (inp : BuildInputs) : Except String JVal := do
  let base := stem (basename inp.video_path)
  let meta ← inp.meta
  let sha ← inp.sha256
  let stats ← inp.stats
  let saved ← inp.frames_saved
  let elaDir := inp.work_dir ++ "/ela"
  let elaEntries ← elaLoop inp.ela elaDir
    (inp.frame_files.take (min 20 inp.frame_files.length))
  let scres ← inp.scenes
  let hashesList ← inp.frame_hash_list
  let duplicates := find_duplicate_hashes hashesList
  let specPath := inp.work_dir ++ "/" ++ base ++ "_spectrogram.png"
  let specOut : Option String :=
    match inp.audio_extract with
    | .error _ => none
    | .ok _ =>
      match inp.audio_spect with
      | .error _ => none
      | .ok _ => some specPath
  .ok (JVal.obj
    [("file", .str inp.video_path),
     ("sha256", .str sha),
     ("metadata", meta),
     ("stats", stats),
     ("frames_saved", .nat saved),
     ("ela", .obj elaEntries),
     ("scene_changes", .obj [("frames", .arr (scres.1.map JVal.nat)),
                             ("fps", .rat scres.2)]),
     ("hash_duplicates", .arr (duplicates.map (fun g =>
        .arr [.str g.1, .arr (g.2.map JVal.nat)]))),
     ("audio_spectrogram", match specOut with
        | some p => .str p
        | none => .null)])

/-- Spectrogram output path used by `build_report` (`forensic.py` line 248). -/
def spectrogramPath (inp : BuildInputs) : String :=
  inp.work_dir ++ "/" ++ stem (basename inp.video_path) ++ "_spectrogram.png"

end Forensic

/-- A concrete run in which every stage succeeds except the ELA analysis of
the second sampled frame. -/
def elaFailInputs : Forensic.BuildInputs :=
  { video_path := "clip.mp4"
    work_dir := "out"
    meta := .ok (.obj [])
    sha256 := .ok "cafe"
    stats := .ok (.obj [])
    frames_saved := .ok 3
    frame_files := ["frame_00000000.jpg", "frame_00000030.jpg", "frame_00000060.jpg"]
    ela := fun f => if f == "frame_00000030.jpg" then .error "ELA failed" else .ok 7
    scenes := .ok ([], 25)
    frame_hash_list := .ok []
    audio_extract := .ok ()
    audio_spect := .ok () }

/-- A concrete run in which the ELA analysis of the third sampled frame
fails after the first two succeed. -/
def elaFailWitnessInputs : Forensic.BuildInputs :=
  { video_path := "clip.mp4"
    work_dir := "out"
    meta := .ok (.obj [])
    sha256 := .ok "cafe"
    stats := .ok (.obj [])
    frames_saved := .ok 3
    frame_files := ["a.jpg", "b.jpg", "c.jpg"]
    ela := fun f => if f == "c.jpg" then .error "boom" else .ok 4
    scenes := .ok ([], 25)
    frame_hash_list := .ok []
    audio_extract := .ok ()
    audio_spect := .ok () }

/-- A concrete run in which every stage succeeds. -/
def allOkInputs : Forensic.BuildInputs :=
  { video_path := "clip.mp4"
    work_dir := "out"
    meta := .ok (.obj [])
    sha256 := .ok "cafe"
    stats := .ok (.obj [])
    frames_saved := .ok 2
    frame_files := ["frame_00000000.jpg"]
    ela := fun _ => .ok 9
    scenes := .ok ([3], 25)
    frame_hash_list := .ok [(0, "01"), (10, "01")]
    audio_extract := .ok ()
    audio_spect := .ok () }

/-- The report record `build_report` produces on `allOkInputs`. -/
def allOkReport : Forensic.JVal :=
  .obj
    [("file", .str "clip.mp4"),
     ("sha256", .str "cafe"),
     ("metadata", .obj []),
     ("stats", .obj []),
     ("frames_saved", .nat 2),
     ("ela", .obj [("frame_00000000.jpg",
        .obj [("ela_image", .str "out/ela/ela_frame_00000000.jpg"),
              ("max_diff", .nat 9)])]),
     ("scene_changes", .obj [("frames", .arr [.nat 3]), ("fps", .rat 25)]),
     ("hash_duplicates", .arr [.arr [.str "01", .arr [.nat 0, .nat 10]]]),
     ("audio_spectrogram", .str "out/clip_spectrogram.png")]

/-- A concrete run in which audio extraction fails and everything else
succeeds. -/
def audioFailInputs : Forensic.BuildInputs :=
  { video_path := "clip.mp4"
    work_dir := "out"
    meta := .ok (.obj [])
    sha256 := .ok "cafe"
    stats := .ok (.obj [])
    frames_saved := .ok 0
    frame_files := []
    ela := fun _ => .ok 0
    scenes := .ok ([], 25)
    frame_hash_list := .ok []
    audio_extract := .error "no audio stream"
    audio_spect := .ok () }

/-- A concrete ELA invocation in which reopening the recompressed temp copy
raises (e.g. a truncated write), after the copy was created. -/
def elaCompFailEnv : Forensic.ElaEnv :=
  { openOrig := .ok ()
    saveTmp := .ok ()
    openComp := .error "cannot identify image file"
    saveScaled := .ok ()
    removeRaises := false
    maxDiff := 0 }

/-- A concrete ELA invocation in which every step succeeds and the removal
of the temp copy succeeds as well. -/
def elaAllOkEnv : Forensic.ElaEnv :=
  { openOrig := .ok ()
    saveTmp := .ok ()
    openComp := .ok ()
    saveScaled := .ok ()
    removeRaises := false
    maxDiff := 12 }

/-!
## Theorems
-/

namespace PyStr

/-- Splitting a string that does not contain the separator yields the whole
string as the only piece. -/
theorem pySplit_of_not_mem (sep : Char) (cs : List Char) (h : sep ∉ cs) :
    pySplit sep cs = [cs] := by
  induction cs with
  | nil => rfl
  | cons c rest ih =>
    have hc : ¬c = sep := fun hc => h (hc ▸ List.mem_cons_self c rest)
    have hr : pySplit sep rest = [rest] := ih fun hx => h (List.mem_cons_of_mem c hx)
    simp only [pySplit, if_neg hc, hr]

/-- Splitting around a single separator occurrence separates the two
sides. -/
theorem pySplit_append_sep (sep : Char) (ns ds : List Char)
    (hns : sep ∉ ns) (hds : sep ∉ ds) :
    pySplit sep (ns ++ sep :: ds) = [ns, ds] := by
  induction ns with
  | nil => simp [pySplit, pySplit_of_not_mem sep ds hds]
  | cons c ns' ih =>
    have hc : ¬c = sep := fun hc => hns (hc ▸ List.mem_cons_self c ns')
    have hr := ih fun hx => hns (List.mem_cons_of_mem c hx)
    simp only [List.cons_append, pySplit, if_neg hc, List.append_eq, hr]

end PyStr

namespace OrientationDetector

/-- If no entry of a `side_data_list` carries a rotation value, the scan
reports nothing. -/
theorem sideDataRotation_eq_none (sds : List SideData)
    (h : ∀ sd ∈ sds, sd.rotation = none) : sideDataRotation sds = none := by
  induction sds with
  | nil => rfl
  | cons sd rest ih =>
    have h0 := h sd (List.mem_cons_self sd rest)
    simp only [sideDataRotation, h0]
    exact ih fun x hx => h x (List.mem_cons_of_mem sd hx)

/-- Streams that contribute nothing are skipped by the stream scan. -/
theorem scanStreams_skip (pre : List StreamRec) (rest : List StreamRec)
    (h : ∀ t ∈ pre, streamRotation t = none) :
    scanStreams (pre ++ rest) = scanStreams rest := by
  induction pre with
  | nil => rfl
  | cons s pre' ih =>
    have h0 := h s (List.mem_cons_self s pre')
    simp only [List.cons_append, scanStreams, h0]
    exact ih fun x hx => h x (List.mem_cons_of_mem s hx)

/-- C5: `detect_rotation_from_metadata` satisfies the three spec cases — an
entirely falsy probe record yields `"Unknown"`; streams with no `rotate` tag
and no side-data rotation yield `"0°"`; the first stream (in order) with a
non-null rotation determines the result; within a stream the explicit
`rotate` tag is consulted before the side-data rotations, and `rotate=90`
renders as `"90°"`. -/
theorem detect_rotation_cases :
    detect_rotation_from_metadata none = "Unknown"
    ∧ (∀ streams : List StreamRec,
        (∀ t ∈ streams, t.tags_rotate = none ∧ ∀ sd ∈ t.side_data_list, sd.rotation = none) →
        detect_rotation_from_metadata (some streams) = "0°")
    ∧ (∀ (pre post : List StreamRec) (s : StreamRec) (r : String),
        (∀ t ∈ pre, streamRotation t = none) → streamRotation s = some r →
        detect_rotation_from_metadata (some (pre ++ s :: post)) = r)
    ∧ (∀ (v : String) (sds : List SideData),
        streamRotation ⟨some v, sds⟩ = some (renderRotateTag v))
    ∧ renderRotateTag "90" = "90°" := by
  refine ⟨rfl, ?_, ?_, fun v sds => rfl, rfl⟩
  · intro streams h
    induction streams with
    | nil => rfl
    | cons s rest ih =>
      have h0 := h s (List.mem_cons_self s rest)
      have hsr : streamRotation s = none := by
        simp only [streamRotation, h0.1]
        exact sideDataRotation_eq_none s.side_data_list h0.2
      simp only [detect_rotation_from_metadata, scanStreams, hsr] at ih ⊢
      exact ih fun x hx => h x (List.mem_cons_of_mem s hx)
  · intro pre post s r hpre hs
    show scanStreams (pre ++ s :: post) = r
    rw [scanStreams_skip pre (s :: post) hpre]
    simp only [scanStreams, hs]

/-- Witness for C5 at a concrete input: a first stream with no rotation
information followed by a stream tagged `rotate=90` yields `"90°"`. -/
theorem detect_rotation_cases_witness :
    detect_rotation_from_metadata
      (some ([⟨none, [⟨none⟩]⟩] ++ ⟨some "90", [⟨some (-180)⟩]⟩ :: [])) = "90°" := by
  have h := detect_rotation_cases
  refine h.2.2.1 [⟨none, [⟨none⟩]⟩] [] ⟨some "90", [⟨some (-180)⟩]⟩ "90°" ?_ ?_
  · intro t ht
    rw [List.mem_singleton] at ht
    subst ht
    rfl
  · rw [h.2.2.2.1]
    rw [h.2.2.2.2]

end OrientationDetector

namespace MetadataExtractor

/-- C6: For a frame-rate value of the rational form `"num/den"`,
`pick_relevant_metadata` records `fps` as `num/den` rounded to 2 decimals
when `den != 0`, and keeps the raw rational string verbatim when
`den == 0`.  `ns`/`ds` are the two sides of the slash, and the hypotheses
say they are slash-free strings on which Python `float()` yields `a` and
`b`. -/
theorem pick_fps_rational_parsing (ns ds : List Char) (a b : ℚ)
    (hn : PyStr.parsePyFloat ns = some a) (hd : PyStr.parsePyFloat ds = some b)
    (hns : '/' ∉ ns) (hds : '/' ∉ ds) :
    pick_fps (some (ns ++ '/' :: ds)) =
      if b ≠ 0 then FpsVal.num (pyRound2 (a / b))
      else FpsVal.raw (ns ++ '/' :: ds) := by
  have hsplit : splitSlash (ns ++ '/' :: ds) = [ns, ds] :=
    PyStr.pySplit_append_sep '/' ns ds hns hds
  have hcond : ns ++ '/' :: ds ≠ [] ∧ '/' ∈ ns ++ '/' :: ds := by
    constructor
    · simp
    · simp
  rw [pick_fps, if_pos hcond, hsplit]
  simp only [hd, hn]
  by_cases hb : b = 0
  · simp [hb]
  · simp [hb]

/-- Witness for C6: the ffprobe rate string `"30/1"` yields `fps = 30.0`. -/
theorem pick_fps_rational_parsing_witness :
    pick_fps (some (['3', '0'] ++ '/' :: ['1'])) = FpsVal.num 30 := by
  have h := pick_fps_rational_parsing ['3', '0'] ['1'] 30 1 rfl rfl
    (by decide) (by decide)
  rw [h]
  norm_num [pyRound2, roundHalfEven]

end MetadataExtractor

namespace Forensic

/-- Closed form of the `extract_frames` save loop: with a positive cap and
budget left, the loop emits the stride multiples among the next `r` source
offsets, truncated to the remaining budget (the cap test runs *after* a
save, so the frame that fills the budget is still emitted). -/
theorem extractLoop_take (everyN C : Nat) (r : Nat) :
    ∀ (idx saved : Nat), 0 < C → saved < C →
    extractLoop everyN (some C) r idx saved =
      ((List.range' idx r).filter (fun i => i % everyN == 0)).take (C - saved) := by
  induction r with
  | zero =>
    intro idx saved _ _
    simp [extractLoop]
  | succ n ih =>
    intro idx saved hC hsaved
    rw [List.range'_succ]
    cases hidx : idx % everyN == 0 with
    | true =>
      rw [@List.filter_cons_of_pos Nat (fun i => i % everyN == 0) idx
        (List.range' (idx + 1) n) hidx]
      by_cases hle : C ≤ saved + 1
      · have hcs : C - saved = 1 := by omega
        have hcap : capReached (some C) (saved + 1) = true := by
          simp only [capReached, Bool.and_eq_true, decide_eq_true_eq]
          omega
        simp [extractLoop, hidx, hcap, hcs]
      · have hcap : capReached (some C) (saved + 1) = false := by
          simp only [capReached, Bool.and_eq_false_iff, decide_eq_false_iff_not]
          omega
        have hcs : C - saved = (C - (saved + 1)) + 1 := by omega
        rw [hcs, List.take_succ_cons]
        simp only [extractLoop, hidx, hcap, Bool.false_eq_true, if_false, if_true]
        rw [ih (idx + 1) (saved + 1) hC (by omega)]
    | false =>
      rw [@List.filter_cons_of_neg Nat (fun i => i % everyN == 0) idx
        (List.range' (idx + 1) n) (by simp [hidx])]
      simp only [extractLoop, hidx, Bool.false_eq_true, if_false]
      exact ih (idx + 1) saved hC hsaved

/-- Closed form of the `frame_extractor.py` save loop: same output, the cap
test runs *before* a save. -/
theorem fxLoop_take (everyN C : Nat) (r : Nat) :
    ∀ (idx saved : Nat), 0 < C → saved ≤ C →
    fxLoop everyN (some C) r idx saved =
      ((List.range' idx r).filter (fun i => i % everyN == 0)).take (C - saved) := by
  induction r with
  | zero =>
    intro idx saved _ _
    simp [fxLoop]
  | succ n ih =>
    intro idx saved hC hsaved
    rw [List.range'_succ]
    cases hidx : idx % everyN == 0 with
    | true =>
      rw [@List.filter_cons_of_pos Nat (fun i => i % everyN == 0) idx
        (List.range' (idx + 1) n) hidx]
      by_cases hle : C ≤ saved
      · have hcs : C - saved = 0 := by omega
        have hcap : capReached (some C) saved = true := by
          simp only [capReached, Bool.and_eq_true, decide_eq_true_eq]
          omega
        simp [fxLoop, hidx, hcap, hcs]
      · have hcap : capReached (some C) saved = false := by
          simp only [capReached, Bool.and_eq_false_iff, decide_eq_false_iff_not]
          omega
        have hcs : C - saved = (C - (saved + 1)) + 1 := by omega
        rw [hcs, List.take_succ_cons]
        simp only [fxLoop, hidx, hcap, Bool.false_eq_true, if_false, if_true]
        rw [ih (idx + 1) (saved + 1) hC (by omega)]
    | false =>
      rw [@List.filter_cons_of_neg Nat (fun i => i % everyN == 0) idx
        (List.range' (idx + 1) n) (by simp [hidx])]
      simp only [fxLoop, hidx, Bool.false_eq_true, if_false]
      exact ih (idx + 1) saved hC hsaved

/-- Ceiling-division bookkeeping at a stride multiple. -/
theorem ceil_div_mod_zero (N m : Nat) (hN : 0 < N) (hm : m % N = 0) :
    (m + N - 1) / N = m / N ∧ (m + 1 + N - 1) / N = m / N + 1 := by
  obtain ⟨q, rfl⟩ : ∃ q, m = N * q := ⟨m / N, by
    have h := Nat.div_add_mod m N
    omega⟩
  constructor
  · have h1 : N * q + N - 1 = N * q + (N - 1) := by omega
    rw [h1, Nat.mul_add_div hN, Nat.div_eq_of_lt (by omega),
      Nat.mul_div_cancel_left q hN]
    omega
  · have h1 : N * q + 1 + N - 1 = N * (q + 1) := by
      have h2 : N * (q + 1) = N * q + N := by ring
      omega
    rw [h1, Nat.mul_div_cancel_left (q + 1) hN, Nat.mul_div_cancel_left q hN]

/-- Ceiling-division bookkeeping away from a stride multiple. -/
theorem ceil_div_mod_ne_zero (N m : Nat) (hN : 0 < N) (hm : m % N ≠ 0) :
    (m + 1 + N - 1) / N = (m + N - 1) / N := by
  have h := Nat.div_add_mod m N
  have hs : m % N < N := Nat.mod_lt m hN
  have hd : N * (m / N + 1) = N * (m / N) + N := by ring
  have h1 : m + N - 1 = N * (m / N + 1) + (m % N - 1) := by omega
  have h2 : m + 1 + N - 1 = N * (m / N + 1) + m % N := by omega
  rw [h1, h2, Nat.mul_add_div hN, Nat.mul_add_div hN,
    Nat.div_eq_of_lt (show m % N < N by omega),
    Nat.div_eq_of_lt (show m % N - 1 < N by omega)]

/-- The stride multiples among the first `m` offsets, in order. -/
theorem filter_range_mod (N : Nat) (hN : 0 < N) (m : Nat) :
    (List.range m).filter (fun i => i % N == 0) =
      (List.range ((m + N - 1) / N)).map (fun k => k * N) := by
  induction m with
  | zero =>
    simp [Nat.div_eq_of_lt (show N - 1 < N by omega)]
  | succ m ih =>
    rw [List.range_succ, List.filter_append, ih]
    by_cases hm : m % N = 0
    · obtain ⟨hc1, hc2⟩ := ceil_div_mod_zero N m hN hm
      have hfm : List.filter (fun i => i % N == 0) [m] = [m] := by simp [hm]
      have hmN : m / N * N = m := Nat.div_mul_cancel (Nat.dvd_of_mod_eq_zero hm)
      rw [hfm, hc1, hc2, List.range_succ, List.map_append]
      simp [hmN]
    · have hfm : List.filter (fun i => i % N == 0) [m] = [] := by simp [hm]
      rw [hfm, ceil_div_mod_ne_zero N m hN hm, List.append_nil]

/-- C3: For every video with `total` decodable frames, stride `everyN ≥ 1`
and cap `C ≥ 1`, `extract_frames` emits exactly
`min C (ceil (total / everyN))` frame images, at source offsets
`0, everyN, 2*everyN, ...` in strictly increasing source-offset order; the
`frame_extractor.py` variant emits the same offsets. -/
theorem extract_frames_count_and_offsets (total everyN C : Nat)
    (hN : 1 ≤ everyN) (hC : 1 ≤ C) :
    extract_frames total everyN (some C) =
      (List.range (min C ((total + everyN - 1) / everyN))).map (fun k => k * everyN)
    ∧ (extract_frames total everyN (some C)).length =
      min C ((total + everyN - 1) / everyN)
    ∧ (extract_frames total everyN (some C)).Pairwise (· < ·)
    ∧ extract_frames_fx total everyN (some C) = extract_frames total everyN (some C) := by
  have hbody : extract_frames total everyN (some C) =
      (List.range (min C ((total + everyN - 1) / everyN))).map (fun k => k * everyN) := by
    unfold extract_frames
    rw [extractLoop_take everyN C total 0 0 hC (by omega), Nat.sub_zero,
      ← List.range_eq_range', filter_range_mod everyN (by omega) total,
      ← List.map_take, List.take_range]
  refine ⟨hbody, ?_, ?_, ?_⟩
  · rw [hbody]
    simp
  · rw [hbody, List.pairwise_map]
    refine (List.pairwise_lt_range _).imp ?_
    intro a b hab
    exact Nat.mul_lt_mul_of_lt_of_le hab (le_refl everyN) (by omega)
  · unfold extract_frames_fx extract_frames
    rw [fxLoop_take everyN C total 0 0 hC (by omega),
      extractLoop_take everyN C total 0 0 hC (by omega)]

/-- Witness for C3 at a concrete input: 7 decodable frames, stride 3,
cap 2. -/
theorem extract_frames_count_and_offsets_witness :
    extract_frames 7 3 (some 2) =
      (List.range (min 2 ((7 + 3 - 1) / 3))).map (fun k => k * 3)
    ∧ (extract_frames 7 3 (some 2)).length = min 2 ((7 + 3 - 1) / 3)
    ∧ (extract_frames 7 3 (some 2)).Pairwise (· < ·)
    ∧ extract_frames_fx 7 3 (some 2) = extract_frames 7 3 (some 2) :=
  extract_frames_count_and_offsets 7 3 2 (by omega) (by omega)

end Forensic

namespace Forensic

/-- Invariant of the scene-change loop: if the flags accumulated so far form
a chain that is strictly increasing with the configured separation, and the
last flag (if any) lies below the current index, then the final flag list is
such a chain as well. -/
theorem scLoop_inv {α H D : Type} [LinearOrder D] (hist : α → H) (cmp : H → H → D)
    (threshold : D) (minDist : Nat) :
    ∀ (frames : List α) (prev : Option H) (idx : Nat) (changes : List Nat)
      (dists : List (Nat × D)),
    changes.Chain' (fun a b => a < b ∧ minDist ≤ b - a) →
    (∀ l ∈ changes.getLast?, l < idx) →
    (scLoop hist cmp threshold minDist frames prev idx changes dists).1.Chain'
      (fun a b => a < b ∧ minDist ≤ b - a) := by
  intro frames
  induction frames with
  | nil =>
    intro prev idx changes dists hchain hlast
    exact hchain
  | cons f rest ih =>
    intro prev idx changes dists hchain hlast
    cases prev with
    | none =>
      exact ih (some (hist f)) (idx + 1) changes dists hchain
        (fun l hl => Nat.lt_succ_of_lt (hlast l hl))
    | some ph =>
      simp only [scLoop]
      split
      · rename_i hfire
        refine ih (some (hist f)) (idx + 1) (changes ++ [idx]) _ ?_ ?_
        · rw [List.chain'_append]
          refine ⟨hchain, List.chain'_singleton idx, ?_⟩
          intro x hx y hy
          have hyx : y = idx := by
            simp only [List.head?_cons, Option.mem_def, Option.some.injEq] at hy
            exact hy.symm
          subst hyx
          refine ⟨hlast x hx, ?_⟩
          rcases hfire.2 with hemp | hsep
          · subst hemp
            simp at hx
          · have hgl : changes.getLastD 0 = x := by
              rw [List.getLastD_eq_getLast?]
              rw [Option.mem_def] at hx
              rw [hx]
              rfl
            rw [hgl] at hsep
            exact hsep
        · intro l hl
          rw [List.getLast?_concat] at hl
          rw [Option.mem_def, Option.some.injEq] at hl
          omega
      · exact ih (some (hist f)) (idx + 1) changes _ hchain
          (fun l hl => Nat.lt_succ_of_lt (hlast l hl))

/-- C4: For every video and every threshold / `min_distance_frames`
configuration, the flagged indices returned by `scene_changes` are strictly
increasing, any two consecutive flagged indices differ by at least
`min_distance_frames`, and the list is empty when the video has fewer than 2
decodable frames. -/
theorem scene_changes_separation {α H D : Type} [LinearOrder D]
    (hist : α → H) (cmp : H → H → D) (threshold : D) (minDist : Nat)
    (frames : List α) :
    ((scene_changes hist cmp threshold minDist frames).1.Pairwise (· < ·))
    ∧ ((scene_changes hist cmp threshold minDist frames).1.Chain'
        (fun a b => minDist ≤ b - a))
    ∧ (frames.length < 2 → (scene_changes hist cmp threshold minDist frames).1 = []) := by
  have hmain := scLoop_inv hist cmp threshold minDist frames none 0 [] []
    List.chain'_nil (by intro l hl; simp at hl)
  refine ⟨?_, ?_, ?_⟩
  · rw [← List.chain'_iff_pairwise]
    exact hmain.imp fun a b h => h.1
  · exact hmain.imp fun a b h => h.2
  · intro hlen
    cases frames with
    | nil => rfl
    | cons f rest =>
      cases rest with
      | nil => rfl
      | cons g r2 =>
        simp at hlen
        omega

/-- Witness for C4 at a concrete input: a single-frame video produces no
flags. -/
theorem scene_changes_separation_witness :
    (scene_changes (fun x : Nat => x) (fun _ b : Nat => b) 4 2 [3]).1 = [] :=
  (scene_changes_separation (fun x : Nat => x) (fun _ b : Nat => b) 4 2 [3]).2.2
    (by decide)

end Forensic

namespace Forensic

/-- The sampled indices of the `frame_hashes` loop are exactly the stride
multiples among the remaining source offsets. -/
theorem frameHashesLoop_map_fst {F : Type} (resize : F → List ℚ) (N : Nat) :
    ∀ (frames : List F) (idx : Nat),
    (frameHashesLoop resize N frames idx).map Prod.fst =
      (List.range' idx frames.length).filter (fun i => i % N == 0) := by
  intro frames
  induction frames with
  | nil => intro idx; rfl
  | cons f rest ih =>
    intro idx
    rw [List.length_cons, List.range'_succ]
    cases hidx : idx % N == 0 with
    | true =>
      rw [@List.filter_cons_of_pos Nat (fun i => i % N == 0) idx
        (List.range' (idx + 1) rest.length) hidx]
      simp only [frameHashesLoop, hidx, if_true, List.map_cons]
      rw [ih (idx + 1)]
    | false =>
      rw [@List.filter_cons_of_neg Nat (fun i => i % N == 0) idx
        (List.range' (idx + 1) rest.length) (by simp [hidx])]
      simp only [frameHashesLoop, hidx, Bool.false_eq_true, if_false]
      exact ih (idx + 1)

/-- Every fingerprint emitted by the `frame_hashes` loop is the mean-hash of
some frame's resized grid. -/
theorem frameHashesLoop_shape {F : Type} (resize : F → List ℚ) (N : Nat) :
    ∀ (frames : List F) (idx : Nat) (p : Nat × String),
    p ∈ frameHashesLoop resize N frames idx →
    ∃ f, p.2 = meanHash (resize f) := by
  intro frames
  induction frames with
  | nil =>
    intro idx p hp
    simp [frameHashesLoop] at hp
  | cons f rest ih =>
    intro idx p hp
    by_cases hidx : (idx % N == 0) = true
    · simp only [frameHashesLoop, hidx, if_true, List.mem_cons] at hp
      rcases hp with hp | hp
      · exact ⟨f, by rw [hp]⟩
      · exact ih (idx + 1) p hp
    · simp only [frameHashesLoop, hidx, if_false] at hp
      exact ih (idx + 1) p hp

/-- The mean-hash bitstring has one character per grid cell. -/
theorem meanHash_length (grid : List ℚ) : (meanHash grid).length = grid.length := by
  simp [meanHash, String.length]

/-- The mean-hash bitstring is over the alphabet `{'0', '1'}`. -/
theorem meanHash_chars (grid : List ℚ) :
    ∀ c ∈ (meanHash grid).data, c = '0' ∨ c = '1' := by
  intro c hc
  simp only [meanHash] at hc
  rw [List.mem_map] at hc
  obtain ⟨v, hv, hev⟩ := hc
  by_cases hcm : grid.sum / (grid.length : ℚ) < v
  · rw [if_pos hcm] at hev
    right
    exact hev.symm
  · rw [if_neg hcm] at hev
    left
    exact hev.symm

/-- C10: Every pair `(idx, h)` returned by `frame_hashes` has `h` a string
over `{'0','1'}` of length exactly `w * h` (the resized grid size, 256 for
the default 16×16 grid), and the sampled indices are exactly the multiples
of `sample_every_n` among the decodable frame indices, in strictly
increasing order. -/
theorem frame_hashes_wellformed {F : Type} (resize : F → List ℚ)
    (frames : List F) (sampleEveryN w h : Nat)
    (hN : 1 ≤ sampleEveryN) (hres : ∀ f, (resize f).length = w * h) :
    (∀ p ∈ frame_hashes resize sampleEveryN frames,
      (p.2).length = w * h ∧ ∀ c ∈ (p.2).data, c = '0' ∨ c = '1')
    ∧ (frame_hashes resize sampleEveryN frames).map Prod.fst =
        (List.range frames.length).filter (fun i => i % sampleEveryN == 0)
    ∧ ((frame_hashes resize sampleEveryN frames).map Prod.fst).Pairwise (· < ·) := by
  have h2 : (frame_hashes resize sampleEveryN frames).map Prod.fst =
      (List.range frames.length).filter (fun i => i % sampleEveryN == 0) := by
    unfold frame_hashes
    rw [frameHashesLoop_map_fst, ← List.range_eq_range']
  refine ⟨?_, h2, ?_⟩
  · intro p hp
    obtain ⟨f, hf⟩ := frameHashesLoop_shape resize sampleEveryN frames 0 p hp
    rw [hf]
    exact ⟨by rw [meanHash_length, hres f], meanHash_chars _⟩
  · rw [h2]
    exact List.Pairwise.sublist (List.filter_sublist _) (List.pairwise_lt_range _)

/-- Witness for C10 at a concrete input: three decodable frames, stride 2,
2×2 grid. -/
theorem frame_hashes_wellformed_witness :
    (∀ p ∈ frame_hashes (fun _ : Unit => [1, 2, 3, 4]) 2 [(), (), ()],
      (p.2).length = 2 * 2 ∧ ∀ c ∈ (p.2).data, c = '0' ∨ c = '1')
    ∧ (frame_hashes (fun _ : Unit => [1, 2, 3, 4]) 2 [(), (), ()]).map Prod.fst =
        (List.range ([(), (), ()] : List Unit).length).filter (fun i => i % 2 == 0)
    ∧ ((frame_hashes (fun _ : Unit => [1, 2, 3, 4]) 2 [(), (), ()]).map
        Prod.fst).Pairwise (· < ·) :=
  frame_hashes_wellformed (fun _ : Unit => [1, 2, 3, 4]) [(), (), ()] 2 2 2
    (by omega) (fun f => rfl)

end Forensic

namespace Forensic

/-- `setdefault` on a fresh key appends a new singleton bucket at the end. -/
theorem setdefaultAppend_fresh (acc : List (String × List Nat)) (h : String) (i : Nat)
    (hmem : h ∉ acc.map Prod.fst) :
    setdefaultAppend acc h i = acc ++ [(h, [i])] := by
  induction acc with
  | nil => rfl
  | cons g rest ih =>
    have hg : g.1 ≠ h := fun he => hmem (by simp [he])
    obtain ⟨k, l⟩ := g
    simp only [setdefaultAppend, if_neg hg, List.cons_append, List.cons.injEq, true_and]
    exact ih fun hx => hmem (List.mem_cons_of_mem _ hx)

/-- Updating a bucket map pointwise is the identity away from the key. -/
theorem map_update_of_not_mem (rest : List (String × List Nat)) (h : String) (i : Nat)
    (hmem : h ∉ rest.map Prod.fst) :
    rest.map (fun g => if g.1 = h then (g.1, g.2 ++ [i]) else g) = rest := by
  induction rest with
  | nil => rfl
  | cons g r ih =>
    have hg : g.1 ≠ h := fun he => hmem (by simp [he])
    simp only [List.map_cons, if_neg hg, List.cons.injEq, true_and]
    exact ih fun hx => hmem (List.mem_cons_of_mem _ hx)

/-- `setdefault` on a present key (bucket keys distinct) appends the index
to that key's bucket and leaves everything else unchanged. -/
theorem setdefaultAppend_present (acc : List (String × List Nat)) (h : String) (i : Nat)
    (hnd : (acc.map Prod.fst).Nodup) (hmem : h ∈ acc.map Prod.fst) :
    setdefaultAppend acc h i =
      acc.map (fun g => if g.1 = h then (g.1, g.2 ++ [i]) else g) := by
  induction acc with
  | nil => simp at hmem
  | cons g rest ih =>
    obtain ⟨k, l⟩ := g
    by_cases hk : k = h
    · subst hk
      have hrest : k ∉ rest.map Prod.fst := by
        rw [List.map_cons, List.nodup_cons] at hnd
        exact hnd.1
      simp only [setdefaultAppend, if_pos rfl, List.map_cons, if_pos rfl]
      rw [map_update_of_not_mem rest k i hrest]
      simp
    · have hmem2 : h ∈ rest.map Prod.fst := by
        rw [List.map_cons, List.mem_cons] at hmem
        rcases hmem with he | hr
        · exact absurd he.symm hk
        · exact hr
      rw [List.map_cons, List.nodup_cons] at hnd
      simp only [setdefaultAppend, if_neg hk, List.map_cons, List.cons.injEq, true_and]
      exact ih hnd.2 hmem2

end Forensic

namespace Forensic

/-- The pointwise bucket update does not change the key list. -/
theorem keys_map_update (acc : List (String × List Nat)) (h : String) (i : Nat) :
    (acc.map (fun g => if g.1 = h then (g.1, g.2 ++ [i]) else g)).map Prod.fst =
      acc.map Prod.fst := by
  rw [List.map_map]
  apply List.map_congr_left
  intro g hg
  by_cases hgh : g.1 = h
  · simp [Function.comp, hgh]
  · simp [Function.comp, hgh]

/-- One `setdefault` step keeps the bucket keys distinct. -/
theorem setdefault_step_nodup (acc : List (String × List Nat)) (h : String) (i : Nat)
    (hA : (acc.map Prod.fst).Nodup) :
    ((setdefaultAppend acc h i).map Prod.fst).Nodup := by
  by_cases hmem : h ∈ acc.map Prod.fst
  · rw [setdefaultAppend_present acc h i hA hmem, keys_map_update]
    exact hA
  · rw [setdefaultAppend_fresh acc h i hmem, List.map_append]
    simp only [List.map_cons, List.map_nil]
    rw [List.nodup_append]
    refine ⟨hA, List.nodup_singleton h, ?_⟩
    intro k hk hk2
    rw [List.mem_singleton] at hk2
    subst hk2
    exact hmem hk

/-- One `setdefault` step keeps every bucket equal to the ordered list of
processed indices carrying its hash. -/
theorem setdefault_step_buckets (processed : List (Nat × String))
    (acc : List (String × List Nat)) (h : String) (i : Nat)
    (hA : (acc.map Prod.fst).Nodup)
    (hB : ∀ g ∈ acc, g.2 = (processed.filter (fun p => decide (p.2 = g.1))).map Prod.fst)
    (hC : ∀ k, k ∈ acc.map Prod.fst ↔ k ∈ processed.map Prod.snd) :
    ∀ g ∈ setdefaultAppend acc h i,
      g.2 = ((processed ++ [(i, h)]).filter (fun p => decide (p.2 = g.1))).map Prod.fst := by
  by_cases hmem : h ∈ acc.map Prod.fst
  · rw [setdefaultAppend_present acc h i hA hmem]
    intro g' hg'
    rw [List.mem_map] at hg'
    obtain ⟨g, hg, rfl⟩ := hg'
    by_cases hgh : g.1 = h
    · simp only [if_pos hgh]
      rw [List.filter_append, List.map_append, ← hB g hg]
      have hsingle : List.filter (fun p => decide (p.2 = g.1)) [(i, h)] = [(i, h)] := by
        simp [hgh]
      rw [hsingle]
      rfl
    · simp only [if_neg hgh]
      rw [List.filter_append, List.map_append, ← hB g hg]
      have hsingle : List.filter (fun p => decide (p.2 = g.1)) [(i, h)] = [] := by
        simp
        intro he
        exact absurd he.symm hgh
      rw [hsingle]
      simp
  · rw [setdefaultAppend_fresh acc h i hmem]
    intro g hg
    rw [List.mem_append] at hg
    rcases hg with hg | hg
    · have hgh : g.1 ≠ h := by
        intro he
        exact hmem (he ▸ List.mem_map_of_mem Prod.fst hg)
      rw [List.filter_append, List.map_append, ← hB g hg]
      have hsingle : List.filter (fun p => decide (p.2 = g.1)) [(i, h)] = [] := by
        simp
        intro he
        exact absurd he.symm hgh
      rw [hsingle]
      simp
    · rw [List.mem_singleton] at hg
      subst hg
      have hproc : List.filter (fun p => decide (p.2 = h)) processed = [] := by
        rw [List.filter_eq_nil_iff]
        intro p hp hpe
        rw [decide_eq_true_eq] at hpe
        exact hmem ((hC h).mpr (hpe ▸ List.mem_map_of_mem Prod.snd hp))
      rw [List.filter_append]
      simp only
      rw [hproc]
      simp

/-- One `setdefault` step extends the key set by the processed hash. -/
theorem setdefault_step_keys (processed : List (Nat × String))
    (acc : List (String × List Nat)) (h : String) (i : Nat)
    (hA : (acc.map Prod.fst).Nodup)
    (hC : ∀ k, k ∈ acc.map Prod.fst ↔ k ∈ processed.map Prod.snd) :
    ∀ k, k ∈ (setdefaultAppend acc h i).map Prod.fst ↔
      k ∈ (processed ++ [(i, h)]).map Prod.snd := by
  intro k
  rw [List.map_append]
  simp only [List.map_cons, List.map_nil, List.mem_append, List.mem_singleton]
  by_cases hmem : h ∈ acc.map Prod.fst
  · rw [setdefaultAppend_present acc h i hA hmem, keys_map_update]
    constructor
    · intro hk
      exact Or.inl ((hC k).mp hk)
    · intro hk
      rcases hk with hk | hk
      · exact (hC k).mpr hk
      · subst hk
        exact hmem
  · rw [setdefaultAppend_fresh acc h i hmem, List.map_append]
    simp only [List.map_cons, List.map_nil, List.mem_append, List.mem_singleton]
    rw [hC k]

end Forensic

namespace Forensic

/-- Invariant of the dict-building loop of `find_duplicate_hashes`: bucket
keys are distinct, each bucket is exactly the ordered list of processed
indices carrying its hash, and the key set is the set of processed
hashes. -/
theorem buildIndex_inv :
    ∀ (rest processed : List (Nat × String)) (acc : List (String × List Nat)),
    (acc.map Prod.fst).Nodup →
    (∀ g ∈ acc, g.2 = (processed.filter (fun p => decide (p.2 = g.1))).map Prod.fst) →
    (∀ k, k ∈ acc.map Prod.fst ↔ k ∈ processed.map Prod.snd) →
    ((buildIndex rest acc).map Prod.fst).Nodup
    ∧ (∀ g ∈ buildIndex rest acc,
        g.2 = ((processed ++ rest).filter (fun p => decide (p.2 = g.1))).map Prod.fst)
    ∧ (∀ k, k ∈ (buildIndex rest acc).map Prod.fst ↔
        k ∈ (processed ++ rest).map Prod.snd) := by
  intro rest
  induction rest with
  | nil =>
    intro processed acc hA hB hC
    simp only [buildIndex, List.append_nil]
    exact ⟨hA, hB, hC⟩
  | cons p rest' ih =>
    intro processed acc hA hB hC
    obtain ⟨i, hsh⟩ := p
    have heq : processed ++ (i, hsh) :: rest' = (processed ++ [(i, hsh)]) ++ rest' := by
      simp
    rw [buildIndex, heq]
    exact ih (processed ++ [(i, hsh)]) (setdefaultAppend acc hsh i)
      (setdefault_step_nodup acc hsh i hA)
      (setdefault_step_buckets processed acc hsh i hA hB hC)
      (setdefault_step_keys processed acc hsh i hA hC)

/-- Membership in a bucket is membership of the pair in the input. -/
theorem mem_map_fst_filter (hs : List (Nat × String)) (k : String) (i : Nat) :
    i ∈ (hs.filter (fun p => decide (p.2 = k))).map Prod.fst ↔ (i, k) ∈ hs := by
  constructor
  · intro h
    rw [List.mem_map] at h
    obtain ⟨p, hp, hpi⟩ := h
    rw [List.mem_filter, decide_eq_true_eq] at hp
    obtain ⟨a, b⟩ := p
    obtain ⟨hpin, hpk⟩ := hp
    subst hpi
    subst hpk
    exact hpin
  · intro h
    rw [List.mem_map]
    exact ⟨(i, k), List.mem_filter.mpr ⟨h, by simp⟩, rfl⟩

/-- In a list whose first components are distinct, a first component
determines the pair. -/
theorem fst_nodup_inj (l : List (Nat × String)) (hnd : (l.map Prod.fst).Nodup)
    (i : Nat) (a b : String) (ha : (i, a) ∈ l) (hb : (i, b) ∈ l) : a = b := by
  induction l with
  | nil => simp at ha
  | cons p rest ih =>
    rw [List.map_cons, List.nodup_cons] at hnd
    rw [List.mem_cons] at ha hb
    rcases ha with ha | ha <;> rcases hb with hb | hb
    · exact congrArg Prod.snd (ha.trans hb.symm)
    · exfalso
      apply hnd.1
      have h1 : p.1 = i := by rw [← ha]
      rw [h1]
      simpa using List.mem_map_of_mem Prod.fst hb
    · exfalso
      apply hnd.1
      have h1 : p.1 = i := by rw [← hb]
      rw [h1]
      simpa using List.mem_map_of_mem Prod.fst ha
    · exact ih hnd.2 ha hb

/-- Two distinct members force length at least 2. -/
theorem two_mem_length {l : List Nat} {a b : Nat} (ha : a ∈ l) (hb : b ∈ l)
    (hne : a ≠ b) : 1 < l.length := by
  cases l with
  | nil => simp at ha
  | cons x rest =>
    cases rest with
    | nil =>
      rw [List.mem_singleton] at ha hb
      exact absurd (ha.trans hb.symm) hne
    | cons y r2 => simp

end Forensic

namespace Forensic

/-- C8: Duplicate grouping partitions the sample.  For an index list in
strictly increasing sampling order (as `frame_hashes` produces), every group
returned by `find_duplicate_hashes` has size ≥ 2; membership of an index in
a group is exactly ownership of that group's fingerprint; each sampled index
lies in at most one group; any two distinct indices sharing a fingerprint
land together in a reported group; and each group's index list is strictly
increasing. -/
theorem duplicate_groups_partition (hashes : List (Nat × String))
    (hsorted : (hashes.map Prod.fst).Pairwise (· < ·)) :
    (∀ g ∈ find_duplicate_hashes hashes, 2 ≤ g.2.length)
    ∧ (∀ g ∈ find_duplicate_hashes hashes, ∀ i, i ∈ g.2 ↔ (i, g.1) ∈ hashes)
    ∧ (∀ g1 ∈ find_duplicate_hashes hashes, ∀ g2 ∈ find_duplicate_hashes hashes,
        ∀ i, i ∈ g1.2 → i ∈ g2.2 → g1 = g2)
    ∧ (∀ i j hsh, (i, hsh) ∈ hashes → (j, hsh) ∈ hashes → i ≠ j →
        ∃ g, g ∈ find_duplicate_hashes hashes ∧ g.1 = hsh ∧ i ∈ g.2 ∧ j ∈ g.2)
    ∧ (∀ g ∈ find_duplicate_hashes hashes, g.2.Pairwise (· < ·)) := by
  obtain ⟨hA, hB, hC⟩ := buildIndex_inv hashes [] []
    (by simp) (by intro g hg; simp at hg) (by intro k; simp)
  simp only [List.nil_append] at hB hC
  have hnd : (hashes.map Prod.fst).Nodup := hsorted.imp (fun hlt => Nat.ne_of_lt hlt)
  have hmemfilter : ∀ g, g ∈ find_duplicate_hashes hashes →
      g ∈ buildIndex hashes [] ∧ 1 < g.2.length := by
    intro g hg
    rw [find_duplicate_hashes, List.mem_filter, decide_eq_true_eq] at hg
    exact hg
  refine ⟨?_, ?_, ?_, ?_, ?_⟩
  · intro g hg
    exact (hmemfilter g hg).2
  · intro g hg i
    rw [hB g (hmemfilter g hg).1]
    exact mem_map_fst_filter hashes g.1 i
  · intro g1 hg1 g2 hg2 i hi1 hi2
    have h1 := hB g1 (hmemfilter g1 hg1).1
    have h2 := hB g2 (hmemfilter g2 hg2).1
    have hp1 : (i, g1.1) ∈ hashes := (mem_map_fst_filter hashes g1.1 i).mp (h1 ▸ hi1)
    have hp2 : (i, g2.1) ∈ hashes := (mem_map_fst_filter hashes g2.1 i).mp (h2 ▸ hi2)
    have hkey : g1.1 = g2.1 := fst_nodup_inj hashes hnd i g1.1 g2.1 hp1 hp2
    have hbuck : g1.2 = g2.2 := by rw [h1, h2, hkey]
    exact Prod.ext hkey hbuck
  · intro i j hsh hi hj hne
    have hkmem : hsh ∈ (buildIndex hashes []).map Prod.fst :=
      (hC hsh).mpr (by simpa using List.mem_map_of_mem Prod.snd hi)
    rw [List.mem_map] at hkmem
    obtain ⟨g, hg, hgk⟩ := hkmem
    have hgB := hB g hg
    have hgi : i ∈ g.2 := by
      rw [hgB, hgk]
      exact (mem_map_fst_filter hashes hsh i).mpr hi
    have hgj : j ∈ g.2 := by
      rw [hgB, hgk]
      exact (mem_map_fst_filter hashes hsh j).mpr hj
    refine ⟨g, ?_, hgk, hgi, hgj⟩
    rw [find_duplicate_hashes, List.mem_filter, decide_eq_true_eq]
    exact ⟨hg, two_mem_length hgi hgj hne⟩
  · intro g hg
    rw [hB g (hmemfilter g hg).1]
    exact List.Pairwise.sublist
      (List.Sublist.map Prod.fst (List.filter_sublist hashes)) hsorted

/-- Witness for C8 at a concrete input: indices 0 and 5 share fingerprint
`"a"`. -/
theorem duplicate_groups_partition_witness :
    (∀ g ∈ find_duplicate_hashes [(0, "a"), (3, "b"), (5, "a")], 2 ≤ g.2.length)
    ∧ (∀ g ∈ find_duplicate_hashes [(0, "a"), (3, "b"), (5, "a")], ∀ i,
        i ∈ g.2 ↔ (i, g.1) ∈ [(0, "a"), (3, "b"), (5, "a")])
    ∧ (∀ g1 ∈ find_duplicate_hashes [(0, "a"), (3, "b"), (5, "a")],
        ∀ g2 ∈ find_duplicate_hashes [(0, "a"), (3, "b"), (5, "a")],
        ∀ i, i ∈ g1.2 → i ∈ g2.2 → g1 = g2)
    ∧ (∀ i j hsh, (i, hsh) ∈ [(0, "a"), (3, "b"), (5, "a")] →
        (j, hsh) ∈ [(0, "a"), (3, "b"), (5, "a")] → i ≠ j →
        ∃ g, g ∈ find_duplicate_hashes [(0, "a"), (3, "b"), (5, "a")] ∧
          g.1 = hsh ∧ i ∈ g.2 ∧ j ∈ g.2)
    ∧ (∀ g ∈ find_duplicate_hashes [(0, "a"), (3, "b"), (5, "a")],
        g.2.Pairwise (· < ·)) :=
  duplicate_groups_partition [(0, "a"), (3, "b"), (5, "a")] (by decide)

end Forensic

/-- C9 counterexample: an ELA invocation in which reopening the recompressed
temp copy raises propagates the error with the temp copy still on disk — the
removal is only reached on the success path, so the claim that the copy is
removed after any invocation, including failing ones, is false on the
code. -/
theorem ela_tmp_left_on_error_cex :
    Forensic.ela_image_analysis elaCompFailEnv =
      (.error "cannot identify image file", true) := rfl

/-- C9 (amended): on invocations where the analysis completes, the temp-copy
removal is attempted after the statistic is computed and a removal failure
is swallowed — the call still returns normally, and the copy is gone exactly
when the removal did not raise.  On invocations that raise after the temp
copy was written (reopening it, or saving the scaled image), the copy is
left behind.  `ela_from_image` (`ela.py`) behaves identically. -/
theorem ela_tmp_cleanup_on_success (e : Forensic.ElaEnv) (dst : String) :
    (e.openOrig = .ok () → e.saveTmp = .ok () → e.openComp = .ok () →
      e.saveScaled = .ok () →
      Forensic.ela_image_analysis e = (.ok e.maxDiff, e.removeRaises)
      ∧ Forensic.ela_from_image e dst = (.ok dst, e.removeRaises))
    ∧ (∀ err, e.openOrig = .ok () → e.saveTmp = .ok () → e.openComp = .error err →
      Forensic.ela_image_analysis e = (.error err, true)
      ∧ Forensic.ela_from_image e dst = (.error err, true))
    ∧ (∀ err, e.openOrig = .ok () → e.saveTmp = .ok () → e.openComp = .ok () →
      e.saveScaled = .error err →
      Forensic.ela_image_analysis e = (.error err, true)
      ∧ Forensic.ela_from_image e dst = (.error err, true)) := by
  refine ⟨?_, ?_, ?_⟩
  · intro h1 h2 h3 h4
    constructor
    · simp [Forensic.ela_image_analysis, h1, h2, h3, h4]
    · simp [Forensic.ela_from_image, h1, h2, h3, h4]
  · intro err h1 h2 h3
    constructor
    · simp [Forensic.ela_image_analysis, h1, h2, h3]
    · simp [Forensic.ela_from_image, h1, h2, h3]
  · intro err h1 h2 h3 h4
    constructor
    · simp [Forensic.ela_image_analysis, h1, h2, h3, h4]
    · simp [Forensic.ela_from_image, h1, h2, h3, h4]

/-- Witness for C9 at a concrete input: all steps succeed, the removal
succeeds, the statistic is returned and the temp copy is gone. -/
theorem ela_tmp_cleanup_on_success_witness :
    Forensic.ela_image_analysis elaAllOkEnv = (.ok 12, false)
    ∧ Forensic.ela_from_image elaAllOkEnv "out/ela_f.jpg" =
      (.ok "out/ela_f.jpg", false) :=
  (ela_tmp_cleanup_on_success elaAllOkEnv "out/ela_f.jpg").1 rfl rfl rfl rfl

namespace Forensic

/-- Bind on a successful `Except` applies the continuation. -/
theorem except_bind_ok {α β : Type} (a : α) (f : α → Except String β) :
    (Except.ok a >>= f) = f a := rfl

/-- Bind on a failed `Except` propagates the error. -/
theorem except_bind_error {α β : Type} (e : String) (f : α → Except String β) :
    ((Except.error e : Except String α) >>= f) = Except.error e := rfl

/-- The ELA loop of `build_report` propagates the first frame's failure. -/
theorem elaLoop_error (ela : String → Except String Nat) (elaDir : String) :
    ∀ (pre : List String) (f : String) (post : List String) (err : String),
    (∀ g ∈ pre, ∃ d, ela g = .ok d) → ela f = .error err →
    elaLoop ela elaDir (pre ++ f :: post) = .error err := by
  intro pre
  induction pre with
  | nil =>
    intro f post err hpre hf
    simp only [List.nil_append, elaLoop, hf]
    rfl
  | cons g pre2 ih =>
    intro f post err hpre hf
    obtain ⟨d, hd⟩ := hpre g (List.mem_cons_self g pre2)
    simp only [List.cons_append, elaLoop, hd, except_bind_ok, List.append_eq]
    rw [ih f post err (fun x hx => hpre x (List.mem_cons_of_mem g hx)) hf]
    rfl

/-- The ELA loop succeeds when every listed frame succeeds, and each entry
it records is an `{ela_image, max_diff}` object keyed by the frame file. -/
theorem elaLoop_ok (ela : String → Except String Nat) (elaDir : String) :
    ∀ (files : List String),
    (∀ g ∈ files, ∃ d, ela g = .ok d) →
    ∃ entries, elaLoop ela elaDir files = .ok entries := by
  intro files
  induction files with
  | nil => exact fun _ => ⟨[], rfl⟩
  | cons g rest ih =>
    intro hall
    obtain ⟨d, hd⟩ := hall g (List.mem_cons_self g rest)
    obtain ⟨entries, hent⟩ := ih (fun x hx => hall x (List.mem_cons_of_mem g hx))
    refine ⟨(g, JVal.obj [("ela_image", JVal.str (elaDir ++ "/ela_" ++ g)),
      ("max_diff", JVal.nat d)]) :: entries, ?_⟩
    simp only [elaLoop, hd, except_bind_ok, hent]

/-- Every entry of a successful ELA loop is an `{ela_image, max_diff}`
object. -/
theorem elaLoop_ok_shape (ela : String → Except String Nat) (elaDir : String) :
    ∀ (files : List String) (entries : List (String × JVal)),
    elaLoop ela elaDir files = .ok entries →
    ∀ e ∈ entries, ∃ p d,
      e.2 = JVal.obj [("ela_image", JVal.str p), ("max_diff", JVal.nat d)] := by
  intro files
  induction files with
  | nil =>
    intro entries h e he
    simp only [elaLoop, Except.ok.injEq] at h
    subst h
    simp at he
  | cons g rest ih =>
    intro entries h e he
    cases hd : ela g with
    | error err =>
      simp only [elaLoop, hd, except_bind_error] at h
      exact Except.noConfusion h
    | ok d =>
      cases hent : elaLoop ela elaDir rest with
      | error err =>
        simp only [elaLoop, hd, except_bind_ok, hent, except_bind_error] at h
        exact Except.noConfusion h
      | ok entries2 =>
        simp only [elaLoop, hd, except_bind_ok, hent] at h
        have h2 : (g, JVal.obj [("ela_image", JVal.str (elaDir ++ "/ela_" ++ g)),
            ("max_diff", JVal.nat d)]) :: entries2 = entries := by
          rw [← Except.ok.injEq]
          exact h
        subst h2
        rcases List.mem_cons.mp he with he2 | he2
        · subst he2
          exact ⟨elaDir ++ "/ela_" ++ g, d, rfl⟩
        · exact ih entries2 hent e he2

end Forensic

/-- C1 counterexample: with every other stage succeeding, an
`ela_image_analysis` failure on the second of three sampled frames makes
`build_report` abort with that exception — no report is produced and no ELA
results are recorded for the remaining frames, so the per-frame isolation
claimed for the report assembler does not hold on the code. -/
theorem ela_failure_not_isolated_cex :
    Forensic.build_report elaFailInputs = .error "ELA failed" := rfl

/-- C1 (amended): if `ela_image_analysis` raises for any sampled frame (all
earlier frames having succeeded) while the earlier stages succeeded,
`build_report` propagates that exception and aborts the whole run: there is
no per-frame isolation in the ELA loop. -/
theorem ela_failure_aborts_run (inp : Forensic.BuildInputs)
    (m st : Forensic.JVal) (sha : String) (n : Nat)
    (pre post : List String) (f err : String)
    (hm : inp.meta = .ok m) (hsha : inp.sha256 = .ok sha)
    (hst : inp.stats = .ok st) (hn : inp.frames_saved = .ok n)
    (hsplit : inp.frame_files.take (min 20 inp.frame_files.length) = pre ++ f :: post)
    (hpre : ∀ g ∈ pre, ∃ d, inp.ela g = .ok d)
    (hf : inp.ela f = .error err) :
    Forensic.build_report inp = .error err := by
  simp only [Forensic.build_report, hm, hsha, hst, hn, hsplit,
    Forensic.except_bind_ok]
  rw [Forensic.elaLoop_error inp.ela (inp.work_dir ++ "/ela") pre f post err hpre hf]
  rfl

/-- Witness for C1 at a concrete input: the third frame's ELA failure
aborts the run. -/
theorem ela_failure_aborts_run_witness :
    Forensic.build_report elaFailWitnessInputs = .error "boom" :=
  ela_failure_aborts_run elaFailWitnessInputs (.obj []) (.obj []) "cafe" 3
    ["a.jpg", "b.jpg"] [] "c.jpg" "boom"
    rfl rfl rfl rfl rfl
    (by
      intro g hg
      rw [List.mem_cons, List.mem_singleton] at hg
      rcases hg with hg | hg
      · subst hg
        exact ⟨4, rfl⟩
      · subst hg
        exact ⟨4, rfl⟩)
    rfl

/-- C2 counterexample: on a fully successful concrete run, the persisted
report record has no `rotation` and no `generated_at` field — the spec's
schema does not match what `build_report` produces. -/
theorem report_schema_cex :
    Except.map (fun r => ((Forensic.jTopKeys r).contains "rotation",
        (Forensic.jTopKeys r).contains "generated_at"))
      (Forensic.build_report allOkInputs) = .ok (false, false) := rfl

/-- C2 (amended): every report record `build_report` persists has exactly
the top-level fields `file, sha256, metadata, stats, frames_saved, ela,
scene_changes, hash_duplicates, audio_spectrogram` (no `rotation`, no
`generated_at`, no `frames` list); `scene_changes` is an object with
`frames` and `fps`; the per-frame results live in the `ela` mapping, keyed
by frame filename, each holding exactly `ela_image` and `max_diff` (no
`frame_hash`); `audio_spectrogram` is a path string or null. -/
theorem report_record_shape (inp : Forensic.BuildInputs) (r : Forensic.JVal)
    (hr : Forensic.build_report inp = .ok r) :
    Forensic.jTopKeys r = ["file", "sha256", "metadata", "stats", "frames_saved",
      "ela", "scene_changes", "hash_duplicates", "audio_spectrogram"]
    ∧ (∃ fr fps, Forensic.jLookup r "scene_changes" =
        some (Forensic.JVal.obj [("frames", fr), ("fps", fps)]))
    ∧ (∀ v, Forensic.jLookup r "ela" = some v →
        ∀ e ∈ Forensic.jEntries v, ∃ p d,
          e.2 = Forensic.JVal.obj [("ela_image", Forensic.JVal.str p),
            ("max_diff", Forensic.JVal.nat d)])
    ∧ (Forensic.jLookup r "audio_spectrogram" = some Forensic.JVal.null ∨
        ∃ p, Forensic.jLookup r "audio_spectrogram" = some (Forensic.JVal.str p)) := by
  cases hm : inp.meta with
  | error e =>
    simp only [Forensic.build_report, hm, Forensic.except_bind_error] at hr
    exact Except.noConfusion hr
  | ok m =>
  cases hsha : inp.sha256 with
  | error e =>
    simp only [Forensic.build_report, hm, hsha, Forensic.except_bind_ok,
      Forensic.except_bind_error] at hr
    exact Except.noConfusion hr
  | ok sha =>
  cases hst : inp.stats with
  | error e =>
    simp only [Forensic.build_report, hm, hsha, hst, Forensic.except_bind_ok,
      Forensic.except_bind_error] at hr
    exact Except.noConfusion hr
  | ok st =>
  cases hn : inp.frames_saved with
  | error e =>
    simp only [Forensic.build_report, hm, hsha, hst, hn, Forensic.except_bind_ok,
      Forensic.except_bind_error] at hr
    exact Except.noConfusion hr
  | ok n =>
  cases hela : Forensic.elaLoop inp.ela (inp.work_dir ++ "/ela")
      (inp.frame_files.take (min 20 inp.frame_files.length)) with
  | error e =>
    simp only [Forensic.build_report, hm, hsha, hst, hn, hela,
      Forensic.except_bind_ok, Forensic.except_bind_error] at hr
    exact Except.noConfusion hr
  | ok entries =>
  cases hsc : inp.scenes with
  | error e =>
    simp only [Forensic.build_report, hm, hsha, hst, hn, hela, hsc,
      Forensic.except_bind_ok, Forensic.except_bind_error] at hr
    exact Except.noConfusion hr
  | ok scres =>
  cases hh : inp.frame_hash_list with
  | error e =>
    simp only [Forensic.build_report, hm, hsha, hst, hn, hela, hsc, hh,
      Forensic.except_bind_ok, Forensic.except_bind_error] at hr
    exact Except.noConfusion hr
  | ok hl =>
    simp only [Forensic.build_report, hm, hsha, hst, hn, hela, hsc, hh,
      Forensic.except_bind_ok, Except.ok.injEq] at hr
    subst hr
    refine ⟨rfl, ⟨_, _, rfl⟩, ?_, ?_⟩
    · intro v hv e he
      have hv2 : Forensic.JVal.obj entries = v := by
        rw [← Option.some.injEq]
        exact hv
      subst hv2
      exact Forensic.elaLoop_ok_shape inp.ela (inp.work_dir ++ "/ela")
        (inp.frame_files.take (min 20 inp.frame_files.length)) entries hela e he
    · cases hae : inp.audio_extract with
      | error e =>
        left
        simp only [hae]
        rfl
      | ok u =>
        cases has : inp.audio_spect with
        | error e =>
          left
          simp only [hae, has]
          rfl
        | ok u2 =>
          right
          refine ⟨inp.work_dir ++ "/" ++
            Forensic.stem (Forensic.basename inp.video_path) ++
            "_spectrogram.png", ?_⟩
          simp only [hae, has]
          rfl

/-- Witness for C2 at a concrete input: the all-success run produces
`allOkReport`, whose shape the theorem describes. -/
theorem report_record_shape_witness :
    Forensic.jTopKeys allOkReport = ["file", "sha256", "metadata", "stats",
      "frames_saved", "ela", "scene_changes", "hash_duplicates",
      "audio_spectrogram"]
    ∧ (∃ fr fps, Forensic.jLookup allOkReport "scene_changes" =
        some (Forensic.JVal.obj [("frames", fr), ("fps", fps)]))
    ∧ (∀ v, Forensic.jLookup allOkReport "ela" = some v →
        ∀ e ∈ Forensic.jEntries v, ∃ p d,
          e.2 = Forensic.JVal.obj [("ela_image", Forensic.JVal.str p),
            ("max_diff", Forensic.JVal.nat d)])
    ∧ (Forensic.jLookup allOkReport "audio_spectrogram" = some Forensic.JVal.null ∨
        ∃ p, Forensic.jLookup allOkReport "audio_spectrogram" =
          some (Forensic.JVal.str p)) :=
  report_record_shape allOkInputs allOkReport rfl

/-- C7: When metadata, hashing, stats, frame sampling, the ELA loop, scene
detection and frame hashing succeed, a failure in audio extraction or in
spectrogram rendering is non-fatal: `build_report` still completes and
persists a report whose `audio_spectrogram` field is null; when both audio
steps succeed the field holds the spectrogram image path. -/
theorem audio_failure_nonfatal (inp : Forensic.BuildInputs)
    (m st : Forensic.JVal) (sha : String) (n : Nat) (sc : List Nat × ℚ)
    (hl : List (Nat × String))
    (hm : inp.meta = .ok m) (hsha : inp.sha256 = .ok sha)
    (hst : inp.stats = .ok st) (hn : inp.frames_saved = .ok n)
    (helaok : ∀ g ∈ inp.frame_files.take (min 20 inp.frame_files.length),
      ∃ d, inp.ela g = .ok d)
    (hsc : inp.scenes = .ok sc) (hh : inp.frame_hash_list = .ok hl) :
    (((∃ e, inp.audio_extract = .error e) ∨ (∃ e, inp.audio_spect = .error e)) →
      Except.map (fun r => Forensic.jLookup r "audio_spectrogram")
        (Forensic.build_report inp) = .ok (some Forensic.JVal.null))
    ∧ (inp.audio_extract = .ok () → inp.audio_spect = .ok () →
      Except.map (fun r => Forensic.jLookup r "audio_spectrogram")
        (Forensic.build_report inp) =
          .ok (some (Forensic.JVal.str (Forensic.spectrogramPath inp)))) := by
  obtain ⟨entries, hent⟩ := Forensic.elaLoop_ok inp.ela (inp.work_dir ++ "/ela")
    (inp.frame_files.take (min 20 inp.frame_files.length)) helaok
  constructor
  · intro haud
    rcases haud with ⟨e, he⟩ | ⟨e, he⟩
    · simp only [Forensic.build_report, hm, hsha, hst, hn, hent, hsc, hh, he,
        Forensic.except_bind_ok]
      rfl
    · cases hae : inp.audio_extract with
      | error e2 =>
        simp only [Forensic.build_report, hm, hsha, hst, hn, hent, hsc, hh, hae,
          Forensic.except_bind_ok]
        rfl
      | ok u =>
        simp only [Forensic.build_report, hm, hsha, hst, hn, hent, hsc, hh, hae, he,
          Forensic.except_bind_ok]
        rfl
  · intro hae has
    simp only [Forensic.build_report, hm, hsha, hst, hn, hent, hsc, hh, hae, has,
      Forensic.except_bind_ok]
    rfl

/-- Witness for C7 at a concrete input: audio extraction fails, the run
still completes and the field is null. -/
theorem audio_failure_nonfatal_witness :
    Except.map (fun r => Forensic.jLookup r "audio_spectrogram")
      (Forensic.build_report audioFailInputs) = .ok (some Forensic.JVal.null) :=
  (audio_failure_nonfatal audioFailInputs (.obj []) (.obj []) "cafe" 0 ([], 25) []
    rfl rfl rfl rfl
    (by
      intro g hg
      exact absurd hg (List.not_mem_nil g))
    rfl rfl).1
    (Or.inl ⟨"no audio stream", rfl⟩)
